import Mathlib

/-!
Shallow embedding of the TOC-extraction core of the EasyBookmark repository
(`src/llm/toc_extractor.py`, `src/pdf_processor/pdf_writer.py`,
`src/pdf_processor/pdf_reader.py`) together with proofs about the embedded
operations.  Machine integers are modelled as `Int`/`Nat` (Python integers are
unbounded, so no wrap-around is involved); Python exceptions are modelled with
`Option`/`Except`.
-/

/- ===== Python string primitives ===== -/

/-- Whitespace characters removed by Python `str.strip()` (ASCII range). -/
def isPySpace (c : Char) : Bool :=
  c = ' ' || c = '\t' || c = '\n' || c = '\x0b' || c = '\x0c' || c = '\r'

/-- Removal of a maximal trailing run of characters satisfying `isPySpace`,
as Python `str.rstrip()` does. -/
def stripRight : List Char → List Char
  | [] => []
  | a :: t =>
    match stripRight t with
    | [] => if isPySpace a then [] else [a]
    | b :: bs => a :: b :: bs

/-- Python `str.strip()` on a character list. -/
def pyStrip (cs : List Char) : List Char :=
  stripRight (cs.dropWhile isPySpace)

/-- Python `str.strip()` on a `String`. -/
def pyStripS (s : String) : String :=
  String.mk (pyStrip s.toList)

/-- Python `text.split('\n')` on a character list. -/
def splitNL : List Char → List (List Char)
  | [] => [[]]
  | c :: rest =>
    let r := splitNL rest
    if c = '\n' then [] :: r
    else
      match r with
      | h :: t => (c :: h) :: t
      | [] => [[c]]

/-- Python `'\n'.join(lines)`. -/
def joinNL : List (List Char) → List Char
  | [] => []
  | [l] => l
  | l :: rest => l ++ '\n' :: joinNL rest

/-- Numeric value of a run of decimal digit characters. -/
def digitsVal (ds : List Char) : Nat :=
  ds.foldl (fun a c => a * 10 + (c.toNat - 48)) 0

/-- The characters `\x7b` and `\x7d` (curly braces) and other delimiters,
named so they can be used uniformly below. -/
def lbraceChar : Char := Char.ofNat 123

def rbraceChar : Char := Char.ofNat 125

def squoteChar : Char := Char.ofNat 39

/- ===== JSON values and `json.loads` ===== -/

/-- Parsed JSON values, as produced by Python `json.loads`.  Numbers are
modelled by `int` (the entry fields handled by this program are integral;
fractional and exponent notation is outside the model, and the parser below
rejects it).  `bool` is kept separate because Python `bool` is an `int`
subtype whose behaviour under `isinstance(x, int)` matters.  Objects are
association lists in insertion order with duplicate keys collapsed
(last value wins), matching Python `dict` semantics. -/
inductive Json where
  | null : Json
  | bool (b : Bool) : Json
  | int (n : Int) : Json
  | str (s : String) : Json
  | arr (xs : List Json) : Json
  | obj (kvs : List (String × Json)) : Json
deriving Repr

/-- Python `dict` insertion: overwrite the value of an existing key in place,
otherwise append the pair at the end. -/
def insertPair : List (String × Json) → String → Json → List (String × Json)
  | [], k, v => [(k, v)]
  | (k', v') :: rest, k, v =>
    if k' = k then (k, v) :: rest else (k', v') :: insertPair rest k v

/-- Python `dict` lookup (keys are unique after `insertPair`). -/
def pyLookup : List (String × Json) → String → Option Json
  | [], _ => none
  | (k', v') :: rest, k => if k' = k then some v' else pyLookup rest k

/-- JSON whitespace (the only characters `json.loads` skips between tokens). -/
def isJsonWs (c : Char) : Bool :=
  c = ' ' || c = '\t' || c = '\n' || c = '\r'

def skipWs (cs : List Char) : List Char :=
  cs.dropWhile isJsonWs

/-- Value of a hexadecimal digit. -/
def hexVal (c : Char) : Option Nat :=
  if '0' ≤ c ∧ c ≤ '9' then some (c.toNat - 48)
  else if 'a' ≤ c ∧ c ≤ 'f' then some (c.toNat - 87)
  else if 'A' ≤ c ∧ c ≤ 'F' then some (c.toNat - 55)
  else none

/-- One JSON string escape sequence (the character after a backslash). -/
def pEsc : List Char → Option (Char × List Char)
  | 'u' :: h1 :: h2 :: h3 :: h4 :: rest =>
    match hexVal h1, hexVal h2, hexVal h3, hexVal h4 with
    | some a, some b, some c, some d =>
      some (Char.ofNat (((a * 16 + b) * 16 + c) * 16 + d), rest)
    | _, _, _, _ => none
  | c :: rest =>
    if c = '"' then some ('"', rest)
    else if c = '\\' then some ('\\', rest)
    else if c = '/' then some ('/', rest)
    else if c = 'b' then some ('\x08', rest)
    else if c = 'f' then some ('\x0c', rest)
    else if c = 'n' then some ('\n', rest)
    else if c = 'r' then some ('\r', rest)
    else if c = 't' then some ('\t', rest)
    else none
  | [] => none

/-- Body of a JSON string, after the opening quote.  Control characters are
rejected (strict mode of `json.loads`). -/
def pString (fuel : Nat) (cs : List Char) (acc : List Char) :
    Option (String × List Char) :=
  match fuel, cs with
  | 0, _ => none
  | _, [] => none
  | f + 1, c :: rest =>
    if c = '"' then some (String.mk acc.reverse, rest)
    else if c = '\\' then
      match pEsc rest with
      | some (e, rest2) => pString f rest2 (e :: acc)
      | none => none
    else if c.toNat < 32 then none
    else pString f rest (c :: acc)

/-- A JSON number restricted to the integer grammar `-?(0|[1-9][0-9]*)`;
a following `.`, `e` or `E` (a float) is outside the model and rejected. -/
def pNumber (cs : List Char) : Option (Int × List Char) :=
  let (neg, cs1) :=
    match cs with
    | '-' :: r => (true, r)
    | _ => (false, cs)
  match cs1 with
  | c :: _ =>
    if c.isDigit then
      let ds := cs1.takeWhile Char.isDigit
      let rest := cs1.dropWhile Char.isDigit
      if c = '0' ∧ ds.length > 1 then none
      else
        let v : Int := if neg then -(digitsVal ds : Int) else (digitsVal ds : Int)
        match rest with
        | r :: _ => if r = '.' ∨ r = 'e' ∨ r = 'E' then none else some (v, rest)
        | [] => some (v, rest)
    else none
  | [] => none

mutual

/-- One JSON value (with leading whitespace), returning the remaining input. -/
def pVal : Nat → List Char → Option (Json × List Char)
  | 0, _ => none
  | f + 1, cs =>
    let cs := skipWs cs
    match cs with
    | [] => none
    | c :: rest =>
      if c = '"' then
        (pString (rest.length + 1) rest []).map (fun p => (Json.str p.1, p.2))
      else if c = '[' then pArrStart f rest
      else if c = lbraceChar then pObjStart f rest
      else if ("true".toList).isPrefixOf cs then some (Json.bool true, cs.drop 4)
      else if ("false".toList).isPrefixOf cs then some (Json.bool false, cs.drop 5)
      else if ("null".toList).isPrefixOf cs then some (Json.null, cs.drop 4)
      else (pNumber cs).map (fun p => (Json.int p.1, p.2))

/-- Array contents just after `[`. -/
def pArrStart : Nat → List Char → Option (Json × List Char)
  | 0, _ => none
  | f + 1, cs =>
    match skipWs cs with
    | ']' :: r => some (Json.arr [], r)
    | cs' =>
      match pVal f cs' with
      | some (v, r) => pArrLoop f r [v]
      | none => none

/-- Array contents after at least one element has been read. -/
def pArrLoop (fuel : Nat) (cs : List Char) (acc : List Json) :
    Option (Json × List Char) :=
  match fuel with
  | 0 => none
  | f + 1 =>
    match skipWs cs with
    | ']' :: r => some (Json.arr acc.reverse, r)
    | ',' :: r =>
      match pVal f r with
      | some (v, r2) => pArrLoop f r2 (v :: acc)
      | none => none
    | _ => none

/-- Object contents just after the opening brace. -/
def pObjStart : Nat → List Char → Option (Json × List Char)
  | 0, _ => none
  | f + 1, cs =>
    match skipWs cs with
    | c :: r =>
      if c = rbraceChar then some (Json.obj [], r)
      else if c = '"' then
        match pString (r.length + 1) r [] with
        | some (k, r2) => pObjMember f k r2 []
        | none => none
      else none
    | [] => none

/-- After an object key: expect `:`, a value, then loop. -/
def pObjMember (fuel : Nat) (k : String) (cs : List Char)
    (acc : List (String × Json)) : Option (Json × List Char) :=
  match fuel with
  | 0 => none
  | f + 1 =>
    match skipWs cs with
    | ':' :: r =>
      match pVal f r with
      | some (v, r2) => pObjLoop f r2 (insertPair acc k v)
      | none => none
    | _ => none

/-- Object contents after at least one member has been read. -/
def pObjLoop (fuel : Nat) (cs : List Char) (acc : List (String × Json)) :
    Option (Json × List Char) :=
  match fuel with
  | 0 => none
  | f + 1 =>
    match skipWs cs with
    | c :: r =>
      if c = rbraceChar then some (Json.obj acc, r)
      else if c = ',' then
        match skipWs r with
        | c2 :: r2 =>
          if c2 = '"' then
            match pString (r2.length + 1) r2 [] with
            | some (k, r3) => pObjMember f k r3 acc
            | none => none
          else none
        | [] => none
      else none
    | [] => none

end

/-- Python `json.loads` on a character list: one value, then only whitespace
may remain.  The fuel `4 * length + 4` over-approximates the number of
recursive steps (each step consumes input). -/
def jsonLoadsL (cs : List Char) : Option Json :=
  match pVal (4 * cs.length + 4) cs with
  | some (v, rest) => if skipWs rest = [] then some v else none
  | none => none

/-- Python `json.loads` on a `String`. -/
def jsonLoads (s : String) : Option Json :=
  jsonLoadsL s.toList

/- ===== Python value rendering (str / repr of parsed JSON values) ===== -/

mutual

/-- Python `repr` of a value parsed from JSON, as used when such a value is
interpolated or passed to `str` inside a container.  String escaping inside
reprs is not modelled (titles under analysis contain no quotes). -/
def reprJson : Json → String
  | Json.null => "None"
  | Json.bool b => if b then "True" else "False"
  | Json.int n => toString n
  | Json.str s => String.mk (squoteChar :: (s.toList ++ [squoteChar]))
  | Json.arr xs => "[" ++ reprJsonList xs ++ "]"
  | Json.obj kvs =>
    String.mk [lbraceChar] ++ reprJsonPairs kvs ++ String.mk [rbraceChar]

/-- Comma-joined reprs of array elements. -/
def reprJsonList : List Json → String
  | [] => ""
  | [x] => reprJson x
  | x :: y :: rest => reprJson x ++ ", " ++ reprJsonList (y :: rest)

/-- Comma-joined reprs of object members. -/
def reprJsonPairs : List (String × Json) → String
  | [] => ""
  | [(k, v)] =>
    String.mk (squoteChar :: (k.toList ++ [squoteChar])) ++ ": " ++ reprJson v
  | (k, v) :: p :: rest =>
    String.mk (squoteChar :: (k.toList ++ [squoteChar])) ++ ": " ++ reprJson v
      ++ ", " ++ reprJsonPairs (p :: rest)

end

/-- Python `str(x)` for a value parsed from JSON. -/
def strOfJson : Json → String
  | Json.str s => s
  | v => reprJson v

/- ===== Numeric coercions ===== -/

/-- Python `int(float(s))` on a decimal string: optional sign, integer part,
optional fraction; truncation toward zero keeps the (signed) integer part.
Exponent notation, `inf`/`nan` and digit-group underscores are outside the
model, as is the binary rounding of `float` (the strings handled by the
program are short decimals where truncation is exact). -/
def intFloatOfChars (cs : List Char) : Option Int :=
  let (sgn, cs1) :=
    match cs with
    | '+' :: r => ((1 : Int), r)
    | '-' :: r => ((-1 : Int), r)
    | _ => ((1 : Int), cs)
  let ip := cs1.takeWhile Char.isDigit
  let rest := cs1.dropWhile Char.isDigit
  match rest with
  | [] => if ip.isEmpty then none else some (sgn * (digitsVal ip : Int))
  | '.' :: fr =>
    let fp := fr.takeWhile Char.isDigit
    let rest2 := fr.dropWhile Char.isDigit
    if rest2.isEmpty ∧ ¬(ip.isEmpty ∧ fp.isEmpty) then
      some (sgn * (digitsVal ip : Int))
    else none
  | _ => none

/-- Python `int(s)` on a string: optional sign and digits only. -/
def intStrictOfChars (cs : List Char) : Option Int :=
  let (sgn, cs1) :=
    match cs with
    | '+' :: r => ((1 : Int), r)
    | '-' :: r => ((-1 : Int), r)
    | _ => ((1 : Int), cs)
  if cs1 ≠ [] ∧ cs1.all Char.isDigit then some (sgn * (digitsVal cs1 : Int))
  else none

/-- Coercion used by `validate_toc_data`: `x if isinstance(x, int) else
int(float(x))`.  A Python `bool` passes the `isinstance` check (it is an
`int` subtype) and is modelled by its integer value. -/
def coerceIntLike : Json → Option Int
  | Json.int n => some n
  | Json.bool b => some (if b then 1 else 0)
  | Json.str s => intFloatOfChars (pyStrip s.toList)
  | _ => none

/-- Coercion used by `set_user_toc_data`: plain `int(x)`. -/
def intOfJson : Json → Option Int
  | Json.int n => some n
  | Json.bool b => some (if b then 1 else 0)
  | Json.str s => intStrictOfChars (pyStrip s.toList)
  | _ => none

/- ===== TocEntry and validate_toc_data ===== -/

/-- A validated TOC entry as built by `validate_toc_data`: a dict with the
keys `title`, `page`, `level`. -/
structure TocEntry where
  title : String
  page : Int
  level : Int
deriving Repr, DecidableEq

/-- The dict `{'title': ..., 'page': ..., 'level': ...}` a `TocEntry` stands
for, used when an output list is fed back into a validation pass. -/
def entryToJson (e : TocEntry) : Json :=
  Json.obj [("title", Json.str e.title), ("page", Json.int e.page),
            ("level", Json.int e.level)]

/-- The dedup key `f"{title}:{page}"` of `validate_toc_data`. -/
def entryKey (e : TocEntry) : String :=
  e.title ++ ":" ++ toString e.page

/-- Per-item body of the `validate_toc_data` loop: returns the cleaned item,
or `none` when the item is dropped (non-dict, missing field, failed
coercion, page out of range, or empty title). -/
def validateItem (item : Json) (maxPages : Int) : Option TocEntry :=
  match item with
  | Json.obj kvs =>
    match pyLookup kvs "title", pyLookup kvs "page", pyLookup kvs "level" with
    | some tv, some pv, some lv =>
      match coerceIntLike pv with
      | some page =>
        if page ≠ -1 ∧ (page < 1 ∨ maxPages < page) then none
        else
          let title := pyStripS (strOfJson tv)
          if title = "" then none
          else
            match coerceIntLike lv with
            | some l => some ⟨title, page, min 6 (max 1 l)⟩
            | none => none
      | none => none
    | _, _, _ => none
  | _ => none

/-- First-occurrence-wins deduplication over `entryKey`, with the set of
already seen keys as accumulator. -/
def dedupByKey : List TocEntry → List String → List TocEntry
  | [], _ => []
  | e :: es, seen =>
    if entryKey e ∈ seen then dedupByKey es seen
    else e :: dedupByKey es (entryKey e :: seen)

/-- `validate_toc_data` of `toc_extractor.py`: per-item cleaning followed by
deduplication on `(title, page)` (via the string key `f"{title}:{page}"`). -/
def validate_toc_data (toc_data : List Json) (max_pages : Int) : List TocEntry :=
  dedupByKey (toc_data.filterMap (fun item => validateItem item max_pages)) []

/- ===== _parse_llm_response ===== -/

/-- The cleaning pass of `_parse_llm_response`: strip, remove a wrapping
markdown code fence, remove a leading `json`/`JSON` tag line. -/
def cleanLLMText (response_text : String) : String :=
  let cs := pyStrip response_text.toList
  let cs :=
    if ("```".toList).isPrefixOf cs ∧ cs.contains '\n' then
      let lines := splitNL cs
      if lines.length ≥ 3 ∧ pyStrip (lines.getLastD []) = "```".toList then
        pyStrip (joinNL ((lines.drop 1).dropLast))
      else if lines.length ≥ 2 then
        pyStrip (joinNL (lines.drop 1))
      else cs
    else cs
  let cs :=
    if ("json\n".toList).isPrefixOf cs then pyStrip (cs.drop 5)
    else if ("JSON\n".toList).isPrefixOf cs then pyStrip (cs.drop 5)
    else cs
  String.mk cs

/-- The pattern piece `\{[^\x7d]*\}` at the start of the input: consume up to
and including the next closing brace. -/
def matchObjPart (cs : List Char) : Option (List Char × List Char) :=
  match cs with
  | c :: rest =>
    if c = lbraceChar then
      let body := rest.takeWhile (fun x => x ≠ rbraceChar)
      match rest.dropWhile (fun x => x ≠ rbraceChar) with
      | r :: rest2 => some (c :: (body ++ [r]), rest2)
      | [] => none
    else none
  | [] => none

/-- States reachable by `(\s*,\s*\{[^\x7d]*\})*`: the consumed text and the
remaining input after 0, 1, 2, … iterations (in that order). -/
def groupCheckpoints (fuel : Nat) (consumed : List Char) (cs : List Char) :
    List (List Char × List Char) :=
  match fuel with
  | 0 => [(consumed, cs)]
  | f + 1 =>
    (consumed, cs) ::
      (let w1 := cs.takeWhile isPySpace
       match cs.dropWhile isPySpace with
       | ',' :: r =>
         let w2 := r.takeWhile isPySpace
         match matchObjPart (r.dropWhile isPySpace) with
         | some (ob, rest) =>
           groupCheckpoints f (consumed ++ w1 ++ ',' :: (w2 ++ ob)) rest
         | none => []
       | _ => [])

/-- The closing piece `\s*\]`. -/
def closeArr (cs : List Char) : Option (List Char × List Char) :=
  let w := cs.takeWhile isPySpace
  match cs.dropWhile isPySpace with
  | ']' :: r => some (w ++ [']'], r)
  | _ => none

/-- Greedy backtracking of the star: prefer the checkpoint with the most
iterations whose remaining input closes with `\s*\]`. -/
def pickClose : List (List Char × List Char) → Option (List Char × List Char)
  | [] => none
  | (consumed, rest) :: more =>
    match pickClose more with
    | some r => some r
    | none =>
      match closeArr rest with
      | some (cl, rest2) => some (consumed ++ cl, rest2)
      | none => none

/-- One attempt of the regex `\[\s*\{[^\x7d]*\}(\s*,\s*\{[^\x7d]*\})*\s*\]`
anchored at the start of `cs`, returning the matched text and the rest. -/
def matchArrayAt (cs : List Char) : Option (List Char × List Char) :=
  match cs with
  | '[' :: rest =>
    let w := rest.takeWhile isPySpace
    match matchObjPart (rest.dropWhile isPySpace) with
    | some (ob, rest2) =>
      pickClose (groupCheckpoints rest2.length ('[' :: (w ++ ob)) rest2)
    | none => none
  | _ => none

/-- `re.findall` of the array pattern: leftmost, non-overlapping matches. -/
def scanMatches (fuel : Nat) (cs : List Char) : List (List Char) :=
  match fuel, cs with
  | 0, _ => []
  | _, [] => []
  | f + 1, c :: rest =>
    match matchArrayAt (c :: rest) with
    | some (m, rest') => m :: scanMatches f rest'
    | none => scanMatches f rest

/-- Method 3 of `_parse_llm_response`: the first regex match that
`json.loads` turns into a list; otherwise the empty list. -/
def tryMatches : List (List Char) → List Json
  | [] => []
  | m :: rest =>
    match jsonLoadsL m with
    | some (Json.arr xs) => xs
    | _ => tryMatches rest

/-- `_parse_llm_response` of `toc_extractor.py`: clean the text, then try
direct parsing, the first-`[`-to-last-`]` substring, and the regex scan, in
that order; on total failure return the empty list. -/
def parse_llm_response (response_text : String) : List Json :=
  let clean := cleanLLMText response_text
  match jsonLoads clean with
  | some (Json.arr xs) => xs
  | _ =>
    let cs := clean.toList
    let jstart := cs.findIdx? (fun c => c = '[')
    let jend := (cs.reverse.findIdx? (fun c => c = ']')).map
      (fun k => cs.length - 1 - k)
    let m2 : Option (List Json) :=
      match jstart, jend with
      | some i, some j =>
        if i < j then
          match jsonLoadsL ((cs.drop i).take (j - i + 1)) with
          | some (Json.arr xs) => some xs
          | _ => none
        else none
      | _, _ => none
    match m2 with
    | some xs => xs
    | none => tryMatches (scanMatches cs.length cs)

/- ===== _extract_toc_with_simple_parsing ===== -/

/-- Maximal munch of `(?:\.[0-9]+)*` after the leading digit group: the
number of additional dot-separated groups and the remaining input.  Each
iteration consumes at least two characters, so the input length is enough
fuel. -/
def munchGroupsF : Nat → List Char → Nat → Nat × List Char
  | 0, cs, n => (n, cs)
  | f + 1, cs, n =>
    match cs with
    | c :: rest =>
      if c = '.' then
        let ds := rest.takeWhile Char.isDigit
        if ds.isEmpty then (n, cs)
        else munchGroupsF f (rest.dropWhile Char.isDigit) (n + 1)
      else (n, cs)
    | [] => (n, cs)

def munchGroups (cs : List Char) (n : Nat) : Nat × List Char :=
  munchGroupsF cs.length cs n

/-- Match of `^(\s*)([0-9]+(?:\.[0-9]+)*)\s+(.+?)\s+(\d+)$` against one line:
`(captured indent, numbering group count, captured title, page number)`.
When the text between the whitespace after the numbering and the trailing
digits is empty, the regex backtracks into that whitespace run and captures
its second-to-last character as the title (it needs at least three
whitespace characters for that). -/
def parseTocLine (line : List Char) : Option (List Char × Nat × List Char × Nat) :=
  let indent := line.takeWhile isPySpace
  let r1 := line.dropWhile isPySpace
  let d1 := r1.takeWhile Char.isDigit
  if d1.isEmpty then none
  else
    let (extra, r2) := munchGroups (r1.dropWhile Char.isDigit) 0
    let groups := 1 + extra
    let ws2 := r2.takeWhile isPySpace
    if ws2.isEmpty then none
    else
      let r3 := r2.dropWhile isPySpace
      let rrev := r3.reverse
      let drev := rrev.takeWhile Char.isDigit
      if drev.isEmpty then none
      else
        let r4 := rrev.dropWhile Char.isDigit
        match r4 with
        | [] =>
          if ws2.length ≥ 3 then
            some (indent, groups, [ws2.getD (ws2.length - 2) ' '],
                  digitsVal drev.reverse)
          else none
        | _ =>
          let wrev := r4.takeWhile isPySpace
          if wrev.isEmpty then none
          else
            let trev := r4.dropWhile isPySpace
            if trev.isEmpty then none
            else some (indent, groups, trev.reverse, digitsVal drev.reverse)

/-- First-occurrence-wins deduplication on the `(title, page)` pair, used
inside the simple parser. -/
def dedupTP : List TocEntry → List (String × Int) → List TocEntry
  | [], _ => []
  | e :: es, seen =>
    if (e.title, e.page) ∈ seen then dedupTP es seen
    else e :: dedupTP es ((e.title, e.page) :: seen)

/-- Stable insertion into a list sorted by ascending page. -/
def insertByPage (e : TocEntry) : List TocEntry → List TocEntry
  | [] => [e]
  | x :: xs => if x.page < e.page then x :: insertByPage e xs else e :: x :: xs

/-- Stable ascending sort by page (Python `list.sort(key=lambda x: x['page'])`). -/
def sortByPage : List TocEntry → List TocEntry
  | [] => []
  | e :: es => insertByPage e (sortByPage es)

/-- The entry built from one matched line of the simple parser. -/
def entryOfLine (page_offset : Int) (m : List Char × Nat × List Char × Nat) :
    TocEntry :=
  let (indent, groups, title, page) := m
  let level := if ¬indent.isEmpty ∧ groups = 1 then groups + indent.length / 4
               else groups
  ⟨pyStripS (String.mk title), (page : Int) + page_offset, max 1 (level : Int)⟩

/-- Line scan of `_extract_toc_with_simple_parsing`: each line is stripped,
blank lines are skipped, and matching lines produce entries. -/
def simpleParseScan (lines : List (List Char)) (page_offset : Int) :
    List TocEntry :=
  lines.filterMap (fun line =>
    let line := pyStrip line
    if line.isEmpty then none
    else (parseTocLine line).map (entryOfLine page_offset))

/-- `_extract_toc_with_simple_parsing` of `toc_extractor.py`: regex scan over
the lines, then (when anything matched) dedup on `(title, page)` and a
stable sort by ascending page. -/
def extract_toc_with_simple_parsing (toc_text : String) (page_offset : Int) :
    List TocEntry :=
  let toc_data := simpleParseScan (splitNL toc_text.toList) page_offset
  if toc_data.isEmpty then []
  else sortByPage (dedupTP toc_data [])

/- ===== extract_toc_from_text ===== -/

/-- Page-offset application of `extract_toc_from_text`: `item['page'] !=
-1` and `item['page'] += page_offset` on a raw parsed item; `none` models a
raised `KeyError`/`TypeError` (non-dict item, missing key, or a
non-integer page value). -/
def applyOffsetItem (page_offset : Int) (item : Json) : Option Json :=
  match item with
  | Json.obj kvs =>
    match pyLookup kvs "page" with
    | some (Json.int n) =>
      if n ≠ -1 then some (Json.obj (insertPair kvs "page" (Json.int (n + page_offset))))
      else some item
    | some (Json.bool b) =>
      some (Json.obj (insertPair kvs "page"
        (Json.int ((if b then 1 else 0) + page_offset))))
    | some _ => none
    | none => none
  | _ => none

/-- `item['page'] += page_offset` over a whole parsed list; `none` models the
first raised exception aborting the loop. -/
def applyOffsetAll (page_offset : Int) : List Json → Option (List Json)
  | [] => some []
  | item :: rest =>
    match applyOffsetItem page_offset item with
    | some item' =>
      match applyOffsetAll page_offset rest with
      | some rest' => some (item' :: rest')
      | none => none
    | none => none

/-- `extract_toc_from_text` of `toc_extractor.py`.  The LLM is abstracted as
an oracle: `none` means initialization failed (`initialize()` returned
`False`), and an invocation result of `Except.error` means `llm.invoke`
raised.  A raised exception anywhere in the body is re-raised to the caller
(`Except.error ()`); otherwise the function returns its entry list. -/
def extract_toc_from_text (llm : Option (String → Except Unit String))
    (toc_text : String) (page_offset : Int) : Except Unit (List TocEntry) :=
  match llm with
  | none => Except.ok (extract_toc_with_simple_parsing toc_text page_offset)
  | some invoke =>
    match invoke toc_text with
    | Except.error e => Except.error e
    | Except.ok response =>
      let toc_data := parse_llm_response response
      if toc_data.isEmpty then
        Except.ok (extract_toc_with_simple_parsing toc_text page_offset)
      else
        match (if page_offset ≠ 0 then applyOffsetAll page_offset toc_data
               else some toc_data) with
        | some adjusted => Except.ok (validate_toc_data adjusted 1000)
        | none => Except.error ()

/- ===== set_user_toc_data (pdf_reader.py) ===== -/

/-- Item loop of `set_user_toc_data`: dict items with all three keys are
converted with `str`/`int`/`int`; other items are skipped with a log
message.  `none` models a conversion exception, which aborts the loop (the
surrounding `except Exception` then makes the call return `[]`). -/
def setUserLoop : List Json → List TocEntry → Option (List TocEntry)
  | [], acc => some acc.reverse
  | item :: rest, acc =>
    match item with
    | Json.obj kvs =>
      match pyLookup kvs "title", pyLookup kvs "page", pyLookup kvs "level" with
      | some tv, some pv, some lv =>
        match intOfJson pv, intOfJson lv with
        | some p, some l => setUserLoop rest (⟨strOfJson tv, p, l⟩ :: acc)
        | _, _ => none
      | _, _, _ => setUserLoop rest acc
    | _ => setUserLoop rest acc

/-- `set_user_toc_data` of `pdf_reader.py`.  The `Except` layer is the
function's exception channel towards its caller: the body catches
`json.JSONDecodeError` and any other exception internally and returns the
empty list in those cases, so no error ever escapes. -/
def set_user_toc_data (toc_json : String) : Except String (List TocEntry) :=
  match jsonLoads toc_json with
  | none => Except.ok []
  | some v =>
    match v with
    | Json.arr items =>
      match setUserLoop items [] with
      | some out => Except.ok out
      | none => Except.ok []
    | _ => Except.ok []

/- ===== create_bookmarks_from_toc (pdf_writer.py) ===== -/

/-- A node created through `writer.add_outline_item(title, page, parent)`.
The outline sink is modelled as an indexed list: a node's id is its
position, `parent` is the id of its parent (or `none` for the root).  The
`level` field records the TOC level the node was created from; the PDF
writer itself stores only title, page and parent. -/
structure OutlineItem where
  title : String
  page : Int
  level : Int
  parent : Option Nat
deriving Repr, DecidableEq

/-- Lookup in the level-to-latest-id map `parent_map` (newest binding of a
level shadows the older ones, as dict assignment does). -/
def lookupLevel : List (Int × Nat) → Int → Option Nat
  | [], _ => none
  | (l', i) :: rest, l => if l' = l then some i else lookupLevel rest l

/-- The loop `for prev_level in range(level - 1, 0, -1)`: probe the levels
`k, k - 1, …, 1` in the map and return the first hit. -/
def searchDown (pm : List (Int × Nat)) : Nat → Option Nat
  | 0 => none
  | k + 1 =>
    match lookupLevel pm ((k : Int) + 1) with
    | some i => some i
    | none => searchDown pm k

/-- Parent id chosen by `create_bookmarks_from_toc` for an entry of the given
level. -/
def findParent (pm : List (Int × Nat)) (level : Int) : Option Nat :=
  if 1 < level then searchDown pm (level - 1).toNat else none

/-- Main loop of `create_bookmarks_from_toc`: skip entries whose page is
outside `[0, numPages)`, attach each created node under `findParent`, and
record it as the latest node of its level. -/
def cbLoop (numPages : Nat) : List TocEntry → List (Int × Nat) →
    List OutlineItem → List OutlineItem
  | [], _, outline => outline
  | e :: rest, pm, outline =>
    if e.page < 0 ∨ (numPages : Int) ≤ e.page then
      cbLoop numPages rest pm outline
    else
      let node : OutlineItem := ⟨e.title, e.page, e.level, findParent pm e.level⟩
      cbLoop numPages rest ((e.level, outline.length) :: pm) (outline ++ [node])

/-- `create_bookmarks_from_toc` of `pdf_writer.py`: the existing outline
(`outline0`) is discarded (`self.writer.outline_root = []`) before the loop
runs, and the call reports success. -/
def create_bookmarks_from_toc (numPages : Nat) (toc_data : List TocEntry)
    (_outline0 : List OutlineItem) : List OutlineItem × Bool :=
  (cbLoop numPages toc_data [] [], true)

/- ===== Specification-side description of the outline parent rule ===== -/

/-- Id (creation position) of the most recently created node of exactly the
given level; `i` is the position of the first listed node. -/
def lastWithLevelAux : List OutlineItem → Int → Nat → Option Nat
  | [], _, _ => none
  | o :: os, l, i =>
    match lastWithLevelAux os l (i + 1) with
    | some j => some j
    | none => if o.level = l then some i else none

/-- Id of the most recently created node of exactly the given level. -/
def lastWithLevel (outline : List OutlineItem) (l : Int) : Option Nat :=
  lastWithLevelAux outline l 0

/-- Greatest level in `[1, l)` held by some created node, if any. -/
def bestLevelBelow : List OutlineItem → Int → Option Int
  | [], _ => none
  | o :: os, l =>
    let r := bestLevelBelow os l
    if 1 ≤ o.level ∧ o.level < l then
      match r with
      | none => some o.level
      | some b => some (max o.level b)
    else r

/-- The parent the specification prescribes: the most recently created node
whose level is the greatest value in `[1, l)` among created nodes, or the
virtual root (`none`) when there is none. -/
def specParent (outline : List OutlineItem) (l : Int) : Option Nat :=
  match bestLevelBelow outline l with
  | none => none
  | some b => lastWithLevel outline b

/- ===== Derived accessors used to state properties ===== -/

/-- The coerced page of a candidate item: the value `validate_toc_data`
computes before its range check (`none` when the item is not a dict, has no
`page` key, or the coercion raises). -/
def coercedPage (item : Json) : Option Int :=
  match item with
  | Json.obj kvs =>
    match pyLookup kvs "page" with
    | some pv => coerceIntLike pv
    | none => none
  | _ => none

/-- The coerced title of a candidate item: `str(item['title']).strip()`. -/
def coercedTitle (item : Json) : Option String :=
  match item with
  | Json.obj kvs =>
    match pyLookup kvs "title" with
    | some tv => some (pyStripS (strOfJson tv))
    | none => none
  | _ => none

/-- The coerced level of a candidate item, before clamping. -/
def coercedLevel (item : Json) : Option Int :=
  match item with
  | Json.obj kvs =>
    match pyLookup kvs "level" with
    | some lv => coerceIntLike lv
    | none => none
  | _ => none

/-- Whether a parsed JSON value is an array (`isinstance(x, list)`). -/
def jsonIsArr : Json → Bool
  | Json.arr _ => true
  | _ => false

/- ===== Lemmas: Python strip is idempotent ===== -/

theorem dropWhile_dropWhile (p : Char → Bool) (l : List Char) :
    (l.dropWhile p).dropWhile p = l.dropWhile p := by
  induction l with
  | nil => rfl
  | cons a t ih =>
    by_cases h : p a
    · simp [List.dropWhile_cons, h, ih]
    · simp [List.dropWhile_cons, h]

theorem dropWhile_head_not (p : Char → Bool) (l : List Char) (a : Char)
    (t : List Char) (h : l.dropWhile p = a :: t) : p a = false := by
  induction l with
  | nil => simp at h
  | cons x xs ih =>
    by_cases hx : p x
    · simp [List.dropWhile_cons, hx] at h
      exact ih h
    · simp [List.dropWhile_cons, hx] at h
      rw [← h.1]
      simp [hx]

theorem stripRight_head (a : Char) (t : List Char) :
    stripRight (a :: t) = [] ∨ ∃ r, stripRight (a :: t) = a :: r := by
  rw [stripRight]
  match h : stripRight t with
  | [] =>
    by_cases hs : isPySpace a
    · simp [hs]
    · simp [hs]
  | b :: bs => simp

theorem stripRight_idem (l : List Char) :
    stripRight (stripRight l) = stripRight l := by
  induction l with
  | nil => rfl
  | cons a t ih =>
    rw [stripRight]
    match h : stripRight t with
    | [] =>
      by_cases hs : isPySpace a
      · simp [hs, stripRight]
      · simp [hs, stripRight]
    | b :: bs =>
      rw [h] at ih
      simp only
      rw [stripRight, ih]

theorem dropWhile_eq_self_of_not_head (p : Char → Bool) (a : Char)
    (t : List Char) (h : p a = false) : (a :: t).dropWhile p = a :: t := by
  simp [List.dropWhile_cons, h]

theorem pyStrip_idem (l : List Char) : pyStrip (pyStrip l) = pyStrip l := by
  unfold pyStrip
  have key : (stripRight (l.dropWhile isPySpace)).dropWhile isPySpace
      = stripRight (l.dropWhile isPySpace) := by
    match hd : l.dropWhile isPySpace with
    | [] => simp [stripRight]
    | a :: t =>
      have ha : isPySpace a = false := dropWhile_head_not _ _ _ _ hd
      rcases stripRight_head a t with h | ⟨r, h⟩
      · simp [h]
      · rw [h]
        exact dropWhile_eq_self_of_not_head _ _ _ ha
  rw [key, stripRight_idem]

theorem pyStripS_idem (s : String) : pyStripS (pyStripS s) = pyStripS s := by
  unfold pyStripS
  have : (String.mk (pyStrip s.toList)).toList = pyStrip s.toList := rfl
  rw [this, pyStrip_idem]

/- ===== Lemmas: deduplication ===== -/

theorem dedupByKey_idem (l : List TocEntry) (seen : List String) :
    dedupByKey (dedupByKey l seen) seen = dedupByKey l seen := by
  induction l generalizing seen with
  | nil => rfl
  | cons e es ih =>
    by_cases h : entryKey e ∈ seen
    · simp [dedupByKey, h, ih]
    · simp only [dedupByKey, h, if_neg, if_false]
      exact congrArg _ (ih _)

theorem mem_dedupByKey (l : List TocEntry) (seen : List String) (e : TocEntry)
    (h : e ∈ dedupByKey l seen) : e ∈ l := by
  induction l generalizing seen with
  | nil => simp [dedupByKey] at h
  | cons x xs ih =>
    by_cases hx : entryKey x ∈ seen
    · simp only [dedupByKey, if_pos hx] at h
      exact List.mem_cons_of_mem _ (ih _ h)
    · simp only [dedupByKey, if_neg hx, List.mem_cons] at h
      rcases h with h | h
      · exact h ▸ List.mem_cons_self x xs
      · exact List.mem_cons_of_mem _ (ih _ h)

/- ===== Lemmas: shape of validated entries ===== -/

theorem validateItem_props (item : Json) (m : Int) (e : TocEntry)
    (h : validateItem item m = some e) :
    pyStripS e.title = e.title ∧ e.title ≠ "" ∧
    (e.page = -1 ∨ (1 ≤ e.page ∧ e.page ≤ m)) ∧ 1 ≤ e.level ∧ e.level ≤ 6 := by
  cases item with
  | null => simp [validateItem] at h
  | bool b => simp [validateItem] at h
  | int n => simp [validateItem] at h
  | str s => simp [validateItem] at h
  | arr xs => simp [validateItem] at h
  | obj kvs =>
    simp only [validateItem] at h
    split at h
    case _ tv pv lv =>
      split at h
      case _ page hpage =>
        split at h
        case isTrue => exact absurd h (by simp)
        case isFalse hrange =>
          split at h
          case isTrue => exact absurd h (by simp)
          case isFalse htitle =>
            split at h
            case _ l hl =>
              injection h with he
              refine ⟨?_, ?_, ?_, ?_, ?_⟩
              · rw [← he]
                exact pyStripS_idem _
              · rw [← he]
                exact htitle
              · rw [← he]
                show page = -1 ∨ (1 ≤ page ∧ page ≤ m)
                omega
              · rw [← he]
                show (1 : Int) ≤ min 6 (max 1 l)
                exact le_min (by norm_num) (le_max_left _ _)
              · rw [← he]
                show min 6 (max 1 l) ≤ 6
                exact min_le_left _ _
            case _ => exact absurd h (by simp)
      case _ => exact absurd h (by simp)
    case _ => exact absurd h (by simp)

theorem mem_validate_props (toc : List Json) (m : Int) (e : TocEntry)
    (h : e ∈ validate_toc_data toc m) :
    pyStripS e.title = e.title ∧ e.title ≠ "" ∧
    (e.page = -1 ∨ (1 ≤ e.page ∧ e.page ≤ m)) ∧ 1 ≤ e.level ∧ e.level ≤ 6 := by
  unfold validate_toc_data at h
  have hmem := mem_dedupByKey _ _ _ h
  rcases List.mem_filterMap.mp hmem with ⟨item, _, hitem⟩
  exact validateItem_props item m e hitem

theorem validateItem_entryToJson (e : TocEntry) (m : Int)
    (h1 : pyStripS e.title = e.title) (h2 : e.title ≠ "")
    (h3 : e.page = -1 ∨ (1 ≤ e.page ∧ e.page ≤ m))
    (h4 : 1 ≤ e.level) (h5 : e.level ≤ 6) :
    validateItem (entryToJson e) m = some e := by
  simp only [entryToJson, validateItem, pyLookup]
  simp only [coerceIntLike, strOfJson]
  simp
  refine ⟨by omega, by rw [h1]; exact h2, ?_⟩
  rw [h1, max_eq_right h4, min_eq_right h5]

theorem filterMap_validate_entryToJson (l : List TocEntry) (m : Int)
    (h : ∀ e ∈ l, validateItem (entryToJson e) m = some e) :
    (l.map entryToJson).filterMap (fun item => validateItem item m) = l := by
  induction l with
  | nil => rfl
  | cons e es ih =>
    simp only [List.map_cons, List.filterMap_cons, h e (List.mem_cons_self _ _)]
    rw [ih (fun x hx => h x (List.mem_cons_of_mem _ hx))]

/-- Claim C8: validation with deduplication is idempotent — re-validating the
output of `validate_toc_data` (fed back as the list of dicts it stands for)
returns the same list, in content and order. -/
theorem C8_validate_toc_data_idempotent (xs : List Json) (m : Int) :
    validate_toc_data ((validate_toc_data xs m).map entryToJson) m
      = validate_toc_data xs m := by
  have hall : ∀ e ∈ validate_toc_data xs m, validateItem (entryToJson e) m = some e := by
    intro e he
    obtain ⟨h1, h2, h3, h4, h5⟩ := mem_validate_props xs m e he
    exact validateItem_entryToJson e m h1 h2 h3 h4 h5
  show dedupByKey (((validate_toc_data xs m).map entryToJson).filterMap
    (fun item => validateItem item m)) [] = validate_toc_data xs m
  rw [filterMap_validate_entryToJson _ m hall]
  show dedupByKey (dedupByKey _ []) [] = _
  rw [dedupByKey_idem]
  rfl

/-- Claim C4: `validate_toc_data` drops every item whose coerced page is
neither `-1` nor in `[1, max_pages]`; an item whose coerced page is `-1` is
never dropped by the page-range check (it survives whenever its title and
level pass, independently of `max_pages`), and every surviving entry has
`page = -1` or `1 ≤ page ≤ max_pages`. -/
theorem C4_validate_page_range :
    (∀ (item : Json) (m p : Int), coercedPage item = some p → p ≠ -1 →
        (p < 1 ∨ m < p) → validateItem item m = none)
    ∧ (∀ (item : Json) (m : Int) (t : String) (l : Int),
        coercedPage item = some (-1) → coercedTitle item = some t → t ≠ "" →
        coercedLevel item = some l →
        validateItem item m = some ⟨t, -1, min 6 (max 1 l)⟩)
    ∧ (∀ (xs : List Json) (m : Int) (e : TocEntry), e ∈ validate_toc_data xs m →
        e.page = -1 ∨ (1 ≤ e.page ∧ e.page ≤ m)) := by
  refine ⟨?_, ?_, ?_⟩
  · intro item m p hcp hne hout
    cases item with
    | obj kvs =>
      simp only [coercedPage] at hcp
      cases h2 : pyLookup kvs "page" with
      | none => simp [h2] at hcp
      | some pv =>
        simp only [h2] at hcp
        cases h1 : pyLookup kvs "title" with
        | none => simp [validateItem, h1, h2]
        | some tv =>
          cases h3 : pyLookup kvs "level" with
          | none => simp [validateItem, h1, h2, h3]
          | some lv =>
            simp only [validateItem, h1, h2, h3, hcp]
            rw [if_pos ⟨hne, hout⟩]
    | null => rfl
    | bool b => rfl
    | int n => rfl
    | str s => rfl
    | arr xs => rfl
  · intro item m t l hp ht hte hl
    cases item with
    | obj kvs =>
      simp only [coercedPage] at hp
      simp only [coercedTitle] at ht
      simp only [coercedLevel] at hl
      cases h1 : pyLookup kvs "title" with
      | none => simp [h1] at ht
      | some tv =>
        cases h2 : pyLookup kvs "page" with
        | none => simp [h2] at hp
        | some pv =>
          cases h3 : pyLookup kvs "level" with
          | none => simp [h3] at hl
          | some lv =>
            simp only [h1] at ht
            simp only [h2] at hp
            simp only [h3] at hl
            have hti : pyStripS (strOfJson tv) = t := Option.some.inj ht
            simp only [validateItem, h1, h2, h3, hp, hl, hti]
            rw [if_neg (by simp), if_neg hte]
    | null => simp [coercedPage] at hp
    | bool b => simp [coercedPage] at hp
    | int n => simp [coercedPage] at hp
    | str s => simp [coercedPage] at hp
    | arr xs => simp [coercedPage] at hp
  · intro xs m e he
    exact (mem_validate_props xs m e he).2.2.1

/-- Witness for claim C4: the three parts applied at concrete items. -/
theorem C4_validate_page_range_witness :
    validateItem (Json.obj [("title", Json.str "A"), ("page", Json.int 99),
      ("level", Json.int 1)]) 10 = none
    ∧ validateItem (Json.obj [("title", Json.str "B"), ("page", Json.int (-1)),
      ("level", Json.int 9)]) 10 = some ⟨"B", -1, min 6 (max 1 9)⟩
    ∧ ((⟨"B", -1, 2⟩ : TocEntry).page = -1
      ∨ (1 ≤ (⟨"B", -1, 2⟩ : TocEntry).page ∧ (⟨"B", -1, 2⟩ : TocEntry).page ≤ 5)) :=
  ⟨C4_validate_page_range.1 _ 10 99 (by rfl) (by decide) (by norm_num),
   C4_validate_page_range.2.1 _ 10 "B" 9 (by rfl) (by rfl) (by decide) (by rfl),
   C4_validate_page_range.2.2 [entryToJson ⟨"B", -1, 2⟩] 5 ⟨"B", -1, 2⟩ (by decide)⟩

/- ===== Lemmas: membership through the simple parser ===== -/

theorem mem_insertByPage (e x : TocEntry) (l : List TocEntry)
    (h : x ∈ insertByPage e l) : x = e ∨ x ∈ l := by
  induction l with
  | nil => simp [insertByPage] at h; exact Or.inl h
  | cons y ys ih =>
    by_cases hy : y.page < e.page
    · simp only [insertByPage, if_pos hy, List.mem_cons] at h
      rcases h with h | h
      · exact Or.inr (List.mem_cons.mpr (Or.inl h))
      · rcases ih h with h' | h'
        · exact Or.inl h'
        · exact Or.inr (List.mem_cons_of_mem _ h')
    · simp only [insertByPage, if_neg hy, List.mem_cons] at h
      rcases h with h | h
      · exact Or.inl h
      · exact Or.inr (List.mem_cons.mpr h)

theorem mem_sortByPage (x : TocEntry) (l : List TocEntry)
    (h : x ∈ sortByPage l) : x ∈ l := by
  induction l with
  | nil => simp [sortByPage] at h
  | cons e es ih =>
    simp only [sortByPage] at h
    rcases mem_insertByPage e x _ h with h' | h'
    · exact h' ▸ List.mem_cons_self _ _
    · exact List.mem_cons_of_mem _ (ih h')

theorem mem_dedupTP (x : TocEntry) (l : List TocEntry)
    (seen : List (String × Int)) (h : x ∈ dedupTP l seen) : x ∈ l := by
  induction l generalizing seen with
  | nil => simp [dedupTP] at h
  | cons e es ih =>
    by_cases he : (e.title, e.page) ∈ seen
    · simp only [dedupTP, if_pos he] at h
      exact List.mem_cons_of_mem _ (ih _ h)
    · simp only [dedupTP, if_neg he, List.mem_cons] at h
      rcases h with h | h
      · exact h ▸ List.mem_cons_self _ _
      · exact List.mem_cons_of_mem _ (ih _ h)

/-- Claim C1 (amended): every entry that passes through `validate_toc_data`
has level in `[1, 6]`; entries returned directly by the pattern fallback
(`_extract_toc_with_simple_parsing`, whose results `extract_toc_from_text`
returns without further validation) are only guaranteed `level ≥ 1` — the
fallback applies no upper clamp. -/
theorem C1_levels_amended :
    (∀ (xs : List Json) (m : Int) (e : TocEntry), e ∈ validate_toc_data xs m →
        1 ≤ e.level ∧ e.level ≤ 6)
    ∧ (∀ (t : String) (off : Int) (e : TocEntry),
        e ∈ extract_toc_with_simple_parsing t off → 1 ≤ e.level) := by
  constructor
  · intro xs m e he
    exact ⟨(mem_validate_props xs m e he).2.2.2.1,
           (mem_validate_props xs m e he).2.2.2.2⟩
  · intro t off e he
    unfold extract_toc_with_simple_parsing at he
    by_cases hemp : (simpleParseScan (splitNL t.toList) off).isEmpty
    · rw [if_pos hemp] at he
      simp at he
    · rw [if_neg hemp] at he
      have h1 := mem_dedupTP e _ _ (mem_sortByPage e _ he)
      unfold simpleParseScan at h1
      rcases List.mem_filterMap.mp h1 with ⟨line, _, hline⟩
      by_cases hblank : (pyStrip line).isEmpty
      · simp [hblank] at hline
      · simp only [hblank, if_neg, if_false, Bool.false_eq_true] at hline
        rcases Option.map_eq_some'.mp hline with ⟨mres, _, hres⟩
        rw [← hres]
        exact le_max_left _ _

/-- Counterexample for claim C1 as stated: a seven-group numbering makes the
pattern fallback emit level 7, and `extract_toc_from_text` returns it
unvalidated when no model is available. -/
theorem C1_counterexample :
    extract_toc_from_text none "1.1.1.1.1.1.1 Title 5" 0
      = Except.ok [⟨"Title", 5, 7⟩] ∧ (6 : Int) < 7 :=
  ⟨rfl, by norm_num⟩

/-- Witness for claim C1 (amended), applied at a validated item and at a
pattern-fallback output. -/
theorem C1_levels_amended_witness :
    (1 ≤ (⟨"A", 1, 2⟩ : TocEntry).level ∧ (⟨"A", 1, 2⟩ : TocEntry).level ≤ 6)
    ∧ 1 ≤ (⟨"Scope", 2, 2⟩ : TocEntry).level :=
  ⟨C1_levels_amended.1 [entryToJson ⟨"A", 1, 2⟩] 10 ⟨"A", 1, 2⟩ (by decide),
   C1_levels_amended.2 "1.1 Scope  2" 0 ⟨"Scope", 2, 2⟩ (by decide)⟩

/-- Claim C2 (evaluation at the claimed input): the single-number lines
`"1. Intro  1"` and `"2. Methods  10"` do not match the fallback pattern —
the regex `[0-9]+(?:\.[0-9]+)*` requires a digit after every dot, so a
numbering with a trailing dot is rejected — and only `"1.1 Scope  2"`
produces an entry.  The claimed result would be three entries with pages
`[1, 2, 10]`. -/
theorem C2_failing_input_eval :
    extract_toc_with_simple_parsing "1. Intro  1\n1.1 Scope  2\n2. Methods  10" 0
      = [⟨"Scope", 2, 2⟩] := rfl

/-- Counterexample for claim C6 as stated: the dot leader stays inside the
captured title, so the title is `"Background ..."`, not `"Background"`. -/
theorem C6_counterexample :
    extract_toc_with_simple_parsing "  2.1 Background ... 12" 0
      = [⟨"Background ...", 12, 2⟩]
    ∧ ([⟨"Background ...", 12, 2⟩] : List TocEntry) ≠ [⟨"Background", 12, 2⟩] :=
  ⟨rfl, by decide⟩

/-- Claim C6 (amended): on `"  2.1 Background ... 12"` the fallback with
offset 0 yields exactly one entry `{title: "Background ...", page: 12,
level: 2}` (the dot leader is part of the captured title, which is only
whitespace-trimmed), and with offset +3 the same line yields page 15. -/
theorem C6_amended :
    extract_toc_with_simple_parsing "  2.1 Background ... 12" 0
      = [⟨"Background ...", 12, 2⟩]
    ∧ extract_toc_with_simple_parsing "  2.1 Background ... 12" 3
      = [⟨"Background ...", 15, 2⟩] :=
  ⟨rfl, rfl⟩

/-- Claim C7 (evaluation at the failing input): a line with four leading
spaces and a computed level of 1 keeps level 1 — each line is stripped
before the pattern is applied, so the indent capture is always empty and
the `level += len(indent) // 4` bump is unreachable.  The claim says the
entry gets level 2. -/
theorem C7_failing_input_eval :
    extract_toc_with_simple_parsing "    1 Overview 3" 0 = [⟨"Overview", 3, 1⟩] :=
  rfl

/-- Counterexample for claim C9 as stated: invalid JSON and valid non-array
JSON both produce a normal empty result, not an error. -/
theorem C9_counterexample :
    set_user_toc_data "\x7bbad" = Except.ok []
    ∧ set_user_toc_data "5" = Except.ok [] :=
  ⟨rfl, rfl⟩

/-- Claim C9 (amended): `set_user_toc_data` catches malformed input instead
of surfacing it — for input that is not valid JSON it logs and returns an
empty list, and for valid JSON that is not an array it logs and returns an
empty list; no error reaches the caller. -/
theorem C9_amended :
    (∀ s : String, jsonLoads s = none → set_user_toc_data s = Except.ok [])
    ∧ (∀ (s : String) (v : Json), jsonLoads s = some v → jsonIsArr v = false →
        set_user_toc_data s = Except.ok []) := by
  constructor
  · intro s h
    unfold set_user_toc_data
    rw [h]
  · intro s v h hv
    unfold set_user_toc_data
    rw [h]
    cases v with
    | arr xs => simp [jsonIsArr] at hv
    | null => rfl
    | bool b => rfl
    | int n => rfl
    | str s2 => rfl
    | obj kvs => rfl

/-- Witness for claim C9 (amended) at concrete inputs. -/
theorem C9_amended_witness :
    set_user_toc_data "\x7b" = Except.ok []
    ∧ set_user_toc_data "17" = Except.ok [] :=
  ⟨C9_amended.1 "\x7b" (by rfl), C9_amended.2 "17" (Json.int 17) (by rfl) (by rfl)⟩

/- ===== Lemmas: outline builder ===== -/

theorem cbLoop_titles (n : Nat) (toc : List TocEntry) (pm : List (Int × Nat))
    (out : List OutlineItem) :
    (cbLoop n toc pm out).map (fun o => (o.title, o.page))
      = out.map (fun o => (o.title, o.page))
        ++ (toc.filter (fun e => decide (0 ≤ e.page ∧ e.page < (n : Int)))).map
            (fun e => (e.title, e.page)) := by
  induction toc generalizing pm out with
  | nil => simp [cbLoop]
  | cons e rest ih =>
    by_cases hc : e.page < 0 ∨ (n : Int) ≤ e.page
    · rw [cbLoop, if_pos hc, ih]
      have hp : decide (0 ≤ e.page ∧ e.page < (n : Int)) = false := by
        simp only [decide_eq_false_iff_not]
        omega
      have hfilter : (e :: rest).filter (fun e => decide (0 ≤ e.page ∧ e.page < (n : Int)))
          = rest.filter (fun e => decide (0 ≤ e.page ∧ e.page < (n : Int))) := by
        simp [List.filter_cons, hp]
        omega
      rw [hfilter]
    · rw [cbLoop, if_neg hc, ih]
      have hp : decide (0 ≤ e.page ∧ e.page < (n : Int)) = true := by
        simp only [decide_eq_true_eq]
        omega
      have hfilter : (e :: rest).filter (fun e => decide (0 ≤ e.page ∧ e.page < (n : Int)))
          = e :: rest.filter (fun e => decide (0 ≤ e.page ∧ e.page < (n : Int))) := by
        simp [List.filter_cons, hp]
        omega
      rw [hfilter]
      simp [List.map_append]

/-- Claim C10: `create_bookmarks_from_toc` resets the outline before adding
nodes — the result is independent of the pre-existing outline, the call
succeeds, and the written outline holds exactly the nodes created from the
given entries (those with a page inside `[0, numPages)`), in order. -/
theorem C10_outline_reset (n : Nat) (toc : List TocEntry)
    (st : List OutlineItem) :
    (create_bookmarks_from_toc n toc st).1 = (create_bookmarks_from_toc n toc []).1
    ∧ (create_bookmarks_from_toc n toc st).2 = true
    ∧ (create_bookmarks_from_toc n toc st).1.map (fun o => (o.title, o.page))
      = (toc.filter (fun e => decide (0 ≤ e.page ∧ e.page < (n : Int)))).map
          (fun e => (e.title, e.page)) := by
  refine ⟨rfl, rfl, ?_⟩
  have h := cbLoop_titles n toc [] []
  simpa using h

theorem lastWithLevelAux_append (xs : List OutlineItem) (o : OutlineItem)
    (l : Int) (i : Nat) :
    lastWithLevelAux (xs ++ [o]) l i
      = if o.level = l then some (i + xs.length) else lastWithLevelAux xs l i := by
  induction xs generalizing i with
  | nil =>
    simp only [List.nil_append, lastWithLevelAux]
    by_cases h : o.level = l
    · simp [h]
    · simp [h]
  | cons x xs ih =>
    rw [List.cons_append, lastWithLevelAux, ih (i + 1)]
    by_cases h : o.level = l
    · simp only [if_pos h, List.length_cons]
      have harith : i + 1 + xs.length = i + (xs.length + 1) := by omega
      rw [harith]
    · simp only [if_neg h]
      rw [lastWithLevelAux]

theorem lastWithLevel_append (xs : List OutlineItem) (o : OutlineItem) (l : Int) :
    lastWithLevel (xs ++ [o]) l
      = if o.level = l then some xs.length else lastWithLevel xs l := by
  unfold lastWithLevel
  rw [lastWithLevelAux_append]
  simp

theorem lastWithLevelAux_none_iff (os : List OutlineItem) (l : Int) (i : Nat) :
    lastWithLevelAux os l i = none ↔ ∀ o ∈ os, o.level ≠ l := by
  induction os generalizing i with
  | nil => simp [lastWithLevelAux]
  | cons o os ih =>
    simp only [lastWithLevelAux]
    constructor
    · intro h
      intro o' ho'
      rcases List.mem_cons.mp ho' with rfl | ho'
      · by_cases hlev : o'.level = l
        · exfalso
          rcases hr : lastWithLevelAux os l (i + 1) with _ | j
          · rw [hr] at h
            simp [hlev] at h
          · rw [hr] at h
            simp at h
        · exact hlev
      · rcases hr : lastWithLevelAux os l (i + 1) with _ | j
        · exact ((ih (i + 1)).mp hr) o' ho'
        · rw [hr] at h
          simp at h
    · intro h
      have hr : lastWithLevelAux os l (i + 1) = none :=
        (ih (i + 1)).mpr (fun o' ho' => h o' (List.mem_cons_of_mem _ ho'))
      rw [hr]
      simp [h o (List.mem_cons_self _ _)]

theorem lastWithLevel_none_iff (os : List OutlineItem) (l : Int) :
    lastWithLevel os l = none ↔ ∀ o ∈ os, o.level ≠ l :=
  lastWithLevelAux_none_iff os l 0

theorem bestLevelBelow_none_iff (os : List OutlineItem) (l : Int) :
    bestLevelBelow os l = none ↔ ∀ o ∈ os, ¬(1 ≤ o.level ∧ o.level < l) := by
  induction os with
  | nil => simp [bestLevelBelow]
  | cons o os ih =>
    simp only [bestLevelBelow]
    by_cases hco : 1 ≤ o.level ∧ o.level < l
    · rw [if_pos hco]
      rcases hr : bestLevelBelow os l with _ | b
      · simp only [List.mem_cons]
        constructor
        · intro h
          simp at h
        · intro h
          exact absurd hco (h o (Or.inl rfl))
      · simp only [List.mem_cons]
        constructor
        · intro h
          simp at h
        · intro h
          exact absurd hco (h o (Or.inl rfl))
    · rw [if_neg hco]
      rw [ih]
      constructor
      · intro h o' ho'
        rcases List.mem_cons.mp ho' with rfl | ho'
        · exact hco
        · exact h o' ho'
      · intro h o' ho'
        exact h o' (List.mem_cons_of_mem _ ho')

theorem bestLevelBelow_some (os : List OutlineItem) (l b : Int)
    (h : bestLevelBelow os l = some b) :
    1 ≤ b ∧ b < l ∧ (∃ o ∈ os, o.level = b)
      ∧ ∀ o ∈ os, 1 ≤ o.level → o.level < l → o.level ≤ b := by
  induction os generalizing b with
  | nil => simp [bestLevelBelow] at h
  | cons o os ih =>
    simp only [bestLevelBelow] at h
    by_cases hco : 1 ≤ o.level ∧ o.level < l
    · rw [if_pos hco] at h
      rcases hr : bestLevelBelow os l with _ | b'
      · rw [hr] at h
        injection h with hb
        subst hb
        refine ⟨hco.1, hco.2, ⟨o, List.mem_cons_self _ _, rfl⟩, ?_⟩
        intro o' ho' h1 h2
        rcases List.mem_cons.mp ho' with rfl | ho'
        · exact le_refl _
        · exact absurd ⟨h1, h2⟩ (((bestLevelBelow_none_iff os l).mp hr) o' ho')
      · rw [hr] at h
        injection h with hb
        obtain ⟨hb1, hb2, ⟨ow, how, howl⟩, hmax⟩ := ih b' hr
        subst hb
        refine ⟨?_, ?_, ?_, ?_⟩
        · exact le_trans hb1 (le_max_right _ _)
        · exact max_lt hco.2 hb2
        · rcases max_cases o.level b' with ⟨hm, _⟩ | ⟨hm, _⟩
          · exact ⟨o, List.mem_cons_self _ _, hm.symm ▸ hm⟩
          · exact ⟨ow, List.mem_cons_of_mem _ how, by rw [hm, howl]⟩
        · intro o' ho' h1 h2
          rcases List.mem_cons.mp ho' with rfl | ho'
          · exact le_max_left _ _
          · exact le_trans (hmax o' ho' h1 h2) (le_max_right _ _)
    · rw [if_neg hco] at h
      obtain ⟨hb1, hb2, ⟨ow, how, howl⟩, hmax⟩ := ih b h
      refine ⟨hb1, hb2, ⟨ow, List.mem_cons_of_mem _ how, howl⟩, ?_⟩
      intro o' ho' h1 h2
      rcases List.mem_cons.mp ho' with rfl | ho'
      · exact absurd ⟨h1, h2⟩ hco
      · exact hmax o' ho' h1 h2

theorem bestLevelBelow_of_le_one (os : List OutlineItem) (l : Int) (h : l ≤ 1) :
    bestLevelBelow os l = none := by
  rw [bestLevelBelow_none_iff]
  intro o _
  omega

theorem bestLevelBelow_succ_of_present (out : List OutlineItem) (L : Int)
    (h1 : 1 ≤ L) (h2 : lastWithLevel out L ≠ none) :
    bestLevelBelow out (L + 1) = some L := by
  have hex : ∃ o ∈ out, o.level = L := by
    by_contra hall
    push_neg at hall
    exact h2 ((lastWithLevel_none_iff out L).mpr hall)
  rcases hex with ⟨ow, how, howl⟩
  rcases hb : bestLevelBelow out (L + 1) with _ | b
  · exfalso
    exact ((bestLevelBelow_none_iff out (L + 1)).mp hb) ow how (by omega)
  · obtain ⟨hb1, hb2, _, hmax⟩ := bestLevelBelow_some out (L + 1) b hb
    have hLb : L ≤ b := howl ▸ hmax ow how (by omega) (by omega)
    congr 1
    omega

theorem bestLevelBelow_succ_of_absent (out : List OutlineItem) (L : Int)
    (h : ∀ o ∈ out, o.level ≠ L) :
    bestLevelBelow out (L + 1) = bestLevelBelow out L := by
  induction out with
  | nil => rfl
  | cons o os ih =>
    have ho : o.level ≠ L := h o (List.mem_cons_self _ _)
    have hos : ∀ o' ∈ os, o'.level ≠ L :=
      fun o' ho' => h o' (List.mem_cons_of_mem _ ho')
    simp only [bestLevelBelow, ih hos]
    by_cases hc : 1 ≤ o.level ∧ o.level < L
    · rw [if_pos (by omega : 1 ≤ o.level ∧ o.level < L + 1), if_pos hc]
    · rw [if_neg (by omega : ¬(1 ≤ o.level ∧ o.level < L + 1)), if_neg hc]

theorem searchDown_spec (pm : List (Int × Nat)) (out : List OutlineItem)
    (hinv : ∀ l : Int, lookupLevel pm l = lastWithLevel out l) (k : Nat) :
    searchDown pm k
      = match bestLevelBelow out ((k : Int) + 1) with
        | none => none
        | some b => lastWithLevel out b := by
  induction k with
  | zero =>
    rw [bestLevelBelow_of_le_one out _ (by norm_num)]
    rfl
  | succ k ih =>
    rw [searchDown, hinv ((k : Int) + 1)]
    rcases hl : lastWithLevel out ((k : Int) + 1) with _ | i
    · have habs : ∀ o ∈ out, o.level ≠ (k : Int) + 1 :=
        (lastWithLevel_none_iff out _).mp hl
      have hstep : bestLevelBelow out (((k + 1 : Nat) : Int) + 1)
          = bestLevelBelow out ((k : Int) + 1) := by
        have hcast : ((k + 1 : Nat) : Int) + 1 = ((k : Int) + 1) + 1 := by push_cast; ring
        rw [hcast]
        exact bestLevelBelow_succ_of_absent out _ habs
      rw [hstep]
      exact ih
    · have hpres : bestLevelBelow out (((k : Int) + 1) + 1) = some ((k : Int) + 1) :=
        bestLevelBelow_succ_of_present out _ (by omega) (by rw [hl]; simp)
      have hcast : ((k + 1 : Nat) : Int) + 1 = ((k : Int) + 1) + 1 := by push_cast; ring
      rw [hcast, hpres]
      exact hl.symm

theorem findParent_spec (pm : List (Int × Nat)) (out : List OutlineItem)
    (hinv : ∀ l : Int, lookupLevel pm l = lastWithLevel out l) (L : Int) :
    findParent pm L = specParent out L := by
  unfold findParent specParent
  by_cases hL : 1 < L
  · rw [if_pos hL, searchDown_spec pm out hinv]
    have hcast : (((L - 1).toNat : Int)) + 1 = L := by omega
    rw [hcast]
  · rw [if_neg hL, bestLevelBelow_of_le_one out L (by omega)]

theorem append_singleton_cases {α : Type} (out : List α) (nnode : α)
    (pre : List α) (nd : α) (suf : List α)
    (h : out ++ [nnode] = pre ++ nd :: suf) :
    (pre = out ∧ nd = nnode ∧ suf = [])
    ∨ ∃ suf₀, suf = suf₀ ++ [nnode] ∧ out = pre ++ nd :: suf₀ := by
  rcases List.eq_nil_or_concat suf with hs | ⟨L, b, hs⟩
  · subst hs
    have := List.append_inj' h (by simp)
    exact Or.inl ⟨this.1.symm, (List.cons.injEq _ _ _ _ ▸ this.2).1.symm, rfl⟩
  · subst hs
    rw [List.concat_eq_append] at h
    have hassoc : pre ++ nd :: (L ++ [b]) = (pre ++ nd :: L) ++ [b] := by simp
    rw [hassoc] at h
    have := List.append_inj' h (by simp)
    have hb : nnode = b := by
      have h2 := this.2
      exact (List.cons.injEq _ _ _ _ ▸ h2).1
    exact Or.inr ⟨L, by rw [List.concat_eq_append, hb], this.1⟩

theorem cbLoop_parent (n : Nat) (toc : List TocEntry) :
    ∀ (pm : List (Int × Nat)) (out : List OutlineItem),
      (∀ l : Int, lookupLevel pm l = lastWithLevel out l) →
      (∀ pre nd suf, out = pre ++ nd :: suf → nd.parent = specParent pre nd.level) →
      ∀ pre nd suf, cbLoop n toc pm out = pre ++ nd :: suf →
        nd.parent = specParent pre nd.level := by
  induction toc with
  | nil =>
    intro pm out hinv hprev pre nd suf heq
    rw [cbLoop] at heq
    exact hprev pre nd suf heq
  | cons e rest ih =>
    intro pm out hinv hprev
    rw [cbLoop]
    by_cases hc : e.page < 0 ∨ (n : Int) ≤ e.page
    · rw [if_pos hc]
      exact ih pm out hinv hprev
    · rw [if_neg hc]
      apply ih
      · intro l
        rw [lookupLevel]
        by_cases hl : e.level = l
        · rw [if_pos hl, lastWithLevel_append]
          rw [if_pos (show (⟨e.title, e.page, e.level, findParent pm e.level⟩ :
            OutlineItem).level = l from hl)]
        · rw [if_neg hl, hinv l, lastWithLevel_append]
          rw [if_neg (show ¬(⟨e.title, e.page, e.level, findParent pm e.level⟩ :
            OutlineItem).level = l from hl)]
      · intro pre nd suf heq
        rcases append_singleton_cases out _ pre nd suf heq with
          ⟨hpre, hnd, _⟩ | ⟨suf₀, _, hout⟩
        · subst hpre
          rw [hnd]
          exact findParent_spec pm pre hinv e.level
        · exact hprev pre nd suf₀ hout

/-- Claim C5: in the outline builder, the parent of each created node is the
most recently created node whose level is the greatest value strictly below
the entry's level among already created nodes (the search covers levels
`level-1` down to `1`), or the virtual root if there is none; in
particular, `[L1 "A", L2 "A.1", L3 "A.1.1", L1 "B"]` makes `"B"` a second
top-level sibling of `"A"`, and `[L1 "A", L3 "orphan"]` attaches
`"orphan"` directly under `"A"`. -/
theorem C5_outline_parent_rule :
    (∀ (n : Nat) (toc : List TocEntry) (st pre suf : List OutlineItem)
        (nd : OutlineItem),
        (create_bookmarks_from_toc n toc st).1 = pre ++ nd :: suf →
        nd.parent = specParent pre nd.level)
    ∧ (create_bookmarks_from_toc 1
        [⟨"A", 0, 1⟩, ⟨"A.1", 0, 2⟩, ⟨"A.1.1", 0, 3⟩, ⟨"B", 0, 1⟩] []).1
      = [⟨"A", 0, 1, none⟩, ⟨"A.1", 0, 2, some 0⟩, ⟨"A.1.1", 0, 3, some 1⟩,
         ⟨"B", 0, 1, none⟩]
    ∧ (create_bookmarks_from_toc 1 [⟨"A", 0, 1⟩, ⟨"orphan", 0, 3⟩] []).1
      = [⟨"A", 0, 1, none⟩, ⟨"orphan", 0, 3, some 0⟩] := by
  refine ⟨?_, rfl, rfl⟩
  intro n toc st pre suf nd heq
  refine cbLoop_parent n toc [] [] (fun l => rfl) ?_ pre nd suf heq
  intro pre' nd' suf' h
  exact absurd h (by cases pre' <;> simp)

/-- Witness for claim C5: the parent rule applied to the third node of the
first scenario. -/
theorem C5_outline_parent_rule_witness :
    (⟨"A.1.1", 0, 3, some 1⟩ : OutlineItem).parent
      = specParent [⟨"A", 0, 1, none⟩, ⟨"A.1", 0, 2, some 0⟩]
          (⟨"A.1.1", 0, 3, some 1⟩ : OutlineItem).level :=
  C5_outline_parent_rule.1 1
    [⟨"A", 0, 1⟩, ⟨"A.1", 0, 2⟩, ⟨"A.1.1", 0, 3⟩, ⟨"B", 0, 1⟩] []
    [⟨"A", 0, 1, none⟩, ⟨"A.1", 0, 2, some 0⟩] [⟨"B", 0, 1, none⟩]
    ⟨"A.1.1", 0, 3, some 1⟩ (by rfl)

/-- Counterexample for claim C3 as stated: the string between the fixed
prose pieces is a well-formed JSON array of entry objects, yet the parser
returns the empty list.  Direct parsing fails on the prose, the substring
from the first `[` to the last `]` includes the trailing prose and fails,
and the regex scan fails because `[^\x7d]*` cannot span the closing brace
inside the title `"a\x7db"`. -/
theorem C3_counterexample :
    jsonLoads "[\x7b\"title\": \"a\x7db\", \"page\": 1, \"level\": 1\x7d]"
      = some (Json.arr [Json.obj [("title", Json.str "a\x7db"),
          ("page", Json.int 1), ("level", Json.int 1)]])
    ∧ "Result: [\x7b\"title\": \"a\x7db\", \"page\": 1, \"level\": 1\x7d] tail ]"
      = "Result: " ++ "[\x7b\"title\": \"a\x7db\", \"page\": 1, \"level\": 1\x7d]"
        ++ " tail ]"
    ∧ parse_llm_response
        "Result: [\x7b\"title\": \"a\x7db\", \"page\": 1, \"level\": 1\x7d] tail ]"
      = [] :=
  ⟨rfl, rfl, rfl⟩

/-- Claim C3 (amended): whenever the cleaned response — after whitespace
stripping, code-fence removal and language-tag removal — parses directly as
a JSON array, `_parse_llm_response` returns exactly that array; this covers
fenced and tagged payloads, but an array merely embedded in arbitrary
surrounding prose is not always recovered. -/
theorem C3_parse_amended (s : String) (xs : List Json)
    (h : jsonLoads (cleanLLMText s) = some (Json.arr xs)) :
    parse_llm_response s = xs := by
  simp only [parse_llm_response]
  rw [h]

/-- Witness for claim C3 (amended): a fenced, tagged payload. -/
theorem C3_parse_amended_witness :
    parse_llm_response "```json\n[\x7b\"title\": \"A\", \"page\": 1, \"level\": 1\x7d]\n```"
      = [Json.obj [("title", Json.str "A"), ("page", Json.int 1),
          ("level", Json.int 1)]] :=
  C3_parse_amended _ _ (by rfl)
